import Mathlib

/-!
Verification of the text-normalisation, chunking, ingestion and
retrieval/answer pipeline of a retrieval-augmented question-answering
program (source files src/utils.py, src/rag.py, src/ingest.py).

Strings are modelled as `List Char`.  Pure Python functions are embedded
as computable Lean definitions; external collaborators (the chromadb
vector store, the sentence-transformer models and the OpenRouter LLM)
are modelled as explicit parameters or record fields carrying arbitrary
values, so theorems about the pipeline quantify over all possible
behaviours of those collaborators.
-/

/-- Characters treated as whitespace throughout the model: the ASCII
whitespace characters recognised by Python's str routines together with
the non-breaking space (codepoint 160).  Every definition below uses
this one predicate, mirroring Python's uniform notion of whitespace
(regex class \s, str.split, str.strip). -/
def isPyWs (c : Char) : Bool :=
  c == ' ' || c == '\t' || c == '\n' || c == '\r' ||
  c == Char.ofNat 11 || c == Char.ofNat 12 || c == Char.ofNat 160

/-- Model of the first step of utils.clean_text:
text.replace("\r\n", "\n"). -/
def replCRLF : List Char → List Char
  | '\r' :: '\n' :: t => '\n' :: replCRLF t
  | c :: t => c :: replCRLF t
  | [] => []

/-- Model of the second step of utils.clean_text:
text.replace("\xa0", " "). -/
def nbspMap (l : List Char) : List Char :=
  l.map (fun c => if c == Char.ofNat 160 then ' ' else c)

/-- Model of re.sub(r"\s+", " ", text): every maximal run of whitespace
characters is replaced by a single ASCII space.  The Boolean state
records whether the previous character was whitespace (i.e. whether we
are inside a run whose single replacement space has already been
emitted). -/
def collapseAux : Bool → List Char → List Char
  | _, [] => []
  | prevWs, c :: t =>
    if isPyWs c then
      if prevWs then collapseAux true t else ' ' :: collapseAux true t
    else
      c :: collapseAux false t

/-- Model of str.strip's removal of trailing whitespace. -/
def stripRight : List Char → List Char
  | [] => []
  | c :: t =>
    match stripRight t with
    | [] => if isPyWs c then [] else [c]
    | r => c :: r

/-- Model of Python str.strip(): drop leading and trailing whitespace. -/
def pyStrip (l : List Char) : List Char :=
  stripRight (l.dropWhile isPyWs)

/-- Model of utils.clean_text on string input: normalise line endings,
replace non-breaking spaces, collapse whitespace runs to single spaces
and strip the ends.  (The `if text is None: return ""` guard of the
source concerns a non-string input and is outside this model, whose
inputs are strings.) -/
def clean_text (text : List Char) : List Char :=
  pyStrip (collapseAux false (nbspMap (replCRLF text)))

/-- No two adjacent characters of the list are both ASCII spaces. -/
def okRun : List Char → Bool
  | [] => true
  | [_] => true
  | a :: b :: t => !(a == ' ' && b == ' ') && okRun (b :: t)

/-- Every whitespace character of the list is an ASCII space. -/
def wsOnlySpace (l : List Char) : Prop :=
  ∀ c ∈ l, isPyWs c = true → c = ' '

theorem okRun_cons {a : Char} {t : List Char} (h : okRun (a :: t) = true) :
    okRun t = true := by
  cases t with
  | nil => rfl
  | cons b t' =>
    simp only [okRun, Bool.and_eq_true] at h
    exact h.2

theorem okRun_pair {a b : Char} {t : List Char}
    (h : okRun (a :: b :: t) = true) : ¬(a = ' ' ∧ b = ' ') := by
  simp only [okRun, Bool.and_eq_true, Bool.not_eq_true'] at h
  intro hab
  rcases hab with ⟨ha, hb⟩
  subst ha; subst hb
  simp at h

theorem wsOnlySpace_cons {c : Char} {t : List Char}
    (h : wsOnlySpace (c :: t)) : wsOnlySpace t := by
  intro x hx hws
  exact h x (List.mem_cons_of_mem _ hx) hws

/-- Every whitespace character emitted by collapseAux is an ASCII
space. -/
theorem collapseAux_wsOnlySpace (prev : Bool) (l : List Char) :
    wsOnlySpace (collapseAux prev l) := by
  induction l generalizing prev with
  | nil => intro c hc _; simp [collapseAux] at hc
  | cons c t ih =>
    intro x hx hws
    simp only [collapseAux] at hx
    by_cases hc : isPyWs c = true
    · simp only [hc, if_true] at hx
      cases prev with
      | true => exact ih true x hx hws
      | false =>
        rcases List.mem_cons.mp hx with h | h
        · exact h
        · exact ih true x h hws
    · simp only [hc] at hx
      simp only [Bool.false_eq_true, if_false] at hx
      rcases List.mem_cons.mp hx with h | h
      · subst h; exact absurd hws hc
      · exact ih false x h hws

/-- Output of collapseAux has no two adjacent spaces, and when the state
says the previous character was whitespace the output does not begin
with a space. -/
theorem collapseAux_okRun (l : List Char) :
    ∀ prev, okRun (collapseAux prev l) = true ∧
      (prev = true → (collapseAux prev l).head? ≠ some ' ') := by
  induction l with
  | nil => intro prev; exact ⟨rfl, fun _ => by simp [collapseAux]⟩
  | cons c t ih =>
    intro prev
    by_cases hc : isPyWs c = true
    · cases prev with
      | true =>
        simp only [collapseAux, hc, if_true]
        exact ⟨(ih true).1, fun _ => (ih true).2 rfl⟩
      | false =>
        simp only [collapseAux, hc, if_true]
        constructor
        · have htail := (ih true).1
          have hhead := (ih true).2 rfl
          cases hx : collapseAux true t with
          | nil => rfl
          | cons y ys =>
            simp only [okRun, Bool.and_eq_true]
            refine ⟨?_, by rw [hx] at htail; exact htail⟩
            rw [hx] at hhead
            simp only [List.head?] at hhead
            have : y ≠ ' ' := fun hy => hhead (by rw [hy])
            simp only [Bool.not_eq_true', Bool.and_eq_false_iff]
            right
            exact beq_false_of_ne this
        · intro h; exact absurd h (by simp)
    · have hcs : (c == ' ') = false := by
        apply beq_false_of_ne
        intro h
        subst h
        simp [isPyWs] at hc
      simp only [collapseAux, hc, Bool.false_eq_true, if_false]
      constructor
      · have htail := (ih false).1
        cases hx : collapseAux false t with
        | nil => rfl
        | cons y ys =>
          simp only [okRun, Bool.and_eq_true]
          rw [hx] at htail
          exact ⟨by simp [hcs], htail⟩
      · intro _
        simp only [List.head?, ne_eq, Option.some.injEq]
        intro h
        rw [h] at hcs
        simp at hcs

theorem stripRight_getLast_not_ws :
    ∀ (l : List Char) (c : Char),
      (stripRight l).getLast? = some c → isPyWs c = false := by
  intro l
  induction l with
  | nil => intro c hc; simp [stripRight] at hc
  | cons a t ih =>
    intro c hc
    simp only [stripRight] at hc
    cases hr : stripRight t with
    | nil =>
      rw [hr] at hc
      by_cases hws : isPyWs a = true
      · simp [hws] at hc
      · simp only [hws, Bool.false_eq_true, if_false, List.getLast?_singleton,
          Option.some.injEq] at hc
        subst hc
        exact eq_false_of_ne_true hws
    | cons y ys =>
      rw [hr] at hc
      have : (a :: y :: ys).getLast? = (y :: ys).getLast? := List.getLast?_cons_cons
      rw [this, ← hr] at hc
      exact ih c hc

theorem stripRight_head? (l : List Char) (h : stripRight l ≠ []) :
    (stripRight l).head? = l.head? := by
  cases l with
  | nil => rfl
  | cons a t =>
    simp only [stripRight]
    cases hr : stripRight t with
    | nil =>
      by_cases hws : isPyWs a = true
      · simp only [stripRight, hr, hws, if_true] at h
        exact absurd rfl h
      · simp [hws]
    | cons y ys => simp

theorem mem_of_mem_stripRight {x : Char} :
    ∀ {l : List Char}, x ∈ stripRight l → x ∈ l := by
  intro l
  induction l with
  | nil => intro h; simp [stripRight] at h
  | cons a t ih =>
    intro h
    simp only [stripRight] at h
    cases hr : stripRight t with
    | nil =>
      rw [hr] at h
      by_cases hws : isPyWs a = true
      · simp [hws] at h
      · simp only [hws, Bool.false_eq_true, if_false, List.mem_singleton] at h
        rw [h]
        exact List.mem_cons_self a t
    | cons y ys =>
      rw [hr] at h
      rcases List.mem_cons.mp h with h | h
      · subst h; exact List.mem_cons_self x t
      · exact List.mem_cons_of_mem _ (ih (hr ▸ h))

theorem okRun_stripRight {l : List Char} (h : okRun l = true) :
    okRun (stripRight l) = true := by
  induction l with
  | nil => rfl
  | cons a t ih =>
    simp only [stripRight]
    cases hr : stripRight t with
    | nil =>
      by_cases hws : isPyWs a = true
      · simp [hws, okRun]
      · simp [hws, okRun]
    | cons y ys =>
      have htail : okRun (y :: ys) = true := hr ▸ ih (okRun_cons h)
      have hht : stripRight t ≠ [] := by rw [hr]; simp
      have hhead : (stripRight t).head? = t.head? := stripRight_head? t hht
      rw [hr] at hhead
      cases t with
      | nil => simp [stripRight] at hr
      | cons b t2 =>
        simp only [List.head?, Option.some.injEq] at hhead
        subst hhead
        have hpair := okRun_pair h
        simp only [okRun, Bool.and_eq_true]
        constructor
        · simp only [Bool.not_eq_true', Bool.and_eq_false_iff]
          by_cases ha : a = ' '
          · right
            apply beq_false_of_ne
            intro hy
            exact hpair ⟨ha, hy⟩
          · left; exact beq_false_of_ne ha
        · exact htail

theorem okRun_dropWhile {l : List Char} {p : Char → Bool}
    (h : okRun l = true) : okRun (l.dropWhile p) = true := by
  induction l with
  | nil => rfl
  | cons a t ih =>
    rw [List.dropWhile_cons]
    by_cases hp : p a = true
    · simp only [hp, if_true]
      exact ih (okRun_cons h)
    · simp only [hp, Bool.false_eq_true, if_false]
      exact h

theorem mem_of_mem_dropWhile {x : Char} {p : Char → Bool} :
    ∀ {l : List Char}, x ∈ l.dropWhile p → x ∈ l := by
  intro l
  induction l with
  | nil => intro h; simp at h
  | cons a t ih =>
    intro h
    rw [List.dropWhile_cons] at h
    by_cases hp : p a = true
    · simp only [hp, if_true] at h
      exact List.mem_cons_of_mem _ (ih h)
    · simp only [hp, Bool.false_eq_true, if_false] at h
      exact h

theorem head?_dropWhile {p : Char → Bool} :
    ∀ {l : List Char} {c : Char}, (l.dropWhile p).head? = some c → p c = false := by
  intro l
  induction l with
  | nil => intro c h; simp at h
  | cons a t ih =>
    intro c h
    rw [List.dropWhile_cons] at h
    by_cases hp : p a = true
    · simp only [hp, if_true] at h
      exact ih h
    · simp only [hp, Bool.false_eq_true, if_false, List.head?, Option.some.injEq] at h
      subst h
      exact eq_false_of_ne_true hp

theorem dropWhile_eq_self {p : Char → Bool} {l : List Char}
    (h : ∀ c, l.head? = some c → p c = false) : l.dropWhile p = l := by
  cases l with
  | nil => rfl
  | cons a t =>
    rw [List.dropWhile_cons]
    have := h a rfl
    simp [this]

theorem stripRight_eq_self :
    ∀ {l : List Char}, (∀ c, l.getLast? = some c → isPyWs c = false) →
      stripRight l = l := by
  intro l
  induction l with
  | nil => intro _; rfl
  | cons a t ih =>
    intro h
    cases t with
    | nil =>
      have := h a rfl
      simp [stripRight, this]
    | cons b t2 =>
      have ht : stripRight (b :: t2) = b :: t2 := by
        apply ih
        intro c hc
        apply h c
        have hgl : (a :: b :: t2).getLast? = (b :: t2).getLast? :=
          List.getLast?_cons_cons
        rw [hgl]
        exact hc
      calc stripRight (a :: b :: t2)
          = (match stripRight (b :: t2) with
             | [] => if isPyWs a = true then [] else [a]
             | r => a :: r) := rfl
        _ = a :: b :: t2 := by rw [ht]

theorem replCRLF_eq_self :
    ∀ {l : List Char}, (∀ c ∈ l, c ≠ '\r') → replCRLF l = l := by
  intro l
  induction l using replCRLF.induct with
  | case1 t =>
    intro h
    exact absurd rfl (h '\r' (List.mem_cons_self _ _))
  | case2 c t hside ih =>
    intro h
    rw [replCRLF]
    · rw [ih (fun x hx => h x (List.mem_cons_of_mem _ hx))]
    · exact hside
  | case3 =>
    intro _
    rfl

theorem nbspMap_eq_self {l : List Char}
    (h : ∀ c ∈ l, c ≠ Char.ofNat 160) : nbspMap l = l := by
  unfold nbspMap
  induction l with
  | nil => rfl
  | cons a t ih =>
    simp only [List.map_cons]
    have ha : (a == Char.ofNat 160) = false :=
      beq_false_of_ne (h a (List.mem_cons_self _ _))
    rw [ha]
    simp only [Bool.false_eq_true, if_false, List.cons.injEq, true_and]
    exact ih (fun x hx => h x (List.mem_cons_of_mem _ hx))

theorem collapseAux_eq_self :
    ∀ {l : List Char}, wsOnlySpace l → okRun l = true →
      collapseAux false l = l ∧
      (l.head? ≠ some ' ' → collapseAux true l = l) := by
  intro l
  induction l with
  | nil => intro _ _; exact ⟨rfl, fun _ => rfl⟩
  | cons a t ih =>
    intro hws hok
    have ihs := ih (wsOnlySpace_cons hws) (okRun_cons hok)
    by_cases ha : isPyWs a = true
    · have ha' : a = ' ' := hws a (List.mem_cons_self _ _) ha
      subst ha'
      constructor
      · simp only [collapseAux, ha, if_true]
        have htt : collapseAux true t = t := by
          apply ihs.2
          cases t with
          | nil => simp
          | cons b t2 =>
            have := okRun_pair hok
            simp only [List.head?, ne_eq, Option.some.injEq]
            intro hb
            exact this ⟨rfl, hb⟩
        rw [htt]
        simp
      · intro hcontra
        exact absurd rfl hcontra
    · have hane : a ≠ ' ' := by
        intro h
        subst h
        simp [isPyWs] at ha
      constructor
      · simp only [collapseAux, ha, Bool.false_eq_true, if_false]
        rw [ihs.1]
      · intro _
        simp only [collapseAux, ha, Bool.false_eq_true, if_false]
        rw [ihs.1]

theorem clean_text_wsOnlySpace (x : List Char) : wsOnlySpace (clean_text x) := by
  intro c hc hws
  unfold clean_text pyStrip at hc
  have h1 := mem_of_mem_stripRight hc
  have h2 := mem_of_mem_dropWhile h1
  exact collapseAux_wsOnlySpace false _ c h2 hws

theorem clean_text_okRun (x : List Char) : okRun (clean_text x) = true := by
  unfold clean_text pyStrip
  exact okRun_stripRight (okRun_dropWhile (collapseAux_okRun _ false).1)

theorem clean_text_head (x : List Char) :
    ∀ c, (clean_text x).head? = some c → isPyWs c = false := by
  intro c hc
  unfold clean_text pyStrip at hc
  have hne : stripRight ((collapseAux false (nbspMap (replCRLF x))).dropWhile isPyWs) ≠ [] := by
    intro h
    rw [h] at hc
    simp at hc
  rw [stripRight_head? _ hne] at hc
  exact head?_dropWhile hc

theorem clean_text_getLast (x : List Char) :
    ∀ c, (clean_text x).getLast? = some c → isPyWs c = false := by
  intro c hc
  unfold clean_text pyStrip at hc
  exact stripRight_getLast_not_ws _ c hc

theorem clean_text_fixed {y : List Char}
    (h1 : wsOnlySpace y) (h2 : okRun y = true)
    (h3 : ∀ c, y.head? = some c → isPyWs c = false)
    (h4 : ∀ c, y.getLast? = some c → isPyWs c = false) :
    clean_text y = y := by
  have hr : replCRLF y = y := by
    apply replCRLF_eq_self
    intro c hc hcr
    subst hcr
    have := h1 '\r' hc (by decide)
    simp at this
  have hn : nbspMap y = y := by
    apply nbspMap_eq_self
    intro c hc hna
    subst hna
    have := h1 (Char.ofNat 160) hc (by decide)
    simp at this
  unfold clean_text
  rw [hr, hn, (collapseAux_eq_self h1 h2).1]
  unfold pyStrip
  rw [dropWhile_eq_self h3]
  exact stripRight_eq_self h4

/-- C8: utils.clean_text (the text normaliser) is idempotent on every
string, and maps the empty string to the empty string. -/
theorem clean_text_idempotent :
    (∀ x : List Char, clean_text (clean_text x) = clean_text x) ∧
    clean_text [] = [] :=
  ⟨fun x =>
    clean_text_fixed (clean_text_wsOnlySpace x) (clean_text_okRun x)
      (clean_text_head x) (clean_text_getLast x), rfl⟩

/-- Model of Python text.split() (split on whitespace runs, dropping
empty pieces).  The first argument accumulates the current word in
reverse order. -/
def splitGo : List Char → List Char → List (List Char)
  | cur, [] => if cur = [] then [] else [cur.reverse]
  | cur, c :: rest =>
    if isPyWs c then
      if cur = [] then splitGo [] rest else cur.reverse :: splitGo [] rest
    else
      splitGo (c :: cur) rest

/-- Python text.split(): the list of whitespace-separated words. -/
def pySplitWs (l : List Char) : List (List Char) :=
  splitGo [] l

/-- Model of " ".join(words). -/
def joinSpace : List (List Char) → List Char
  | [] => []
  | [w] => w
  | w :: x :: t => w ++ ' ' :: joinSpace (x :: t)

/-- A word list as produced by pySplitWs: every word is non-empty and
contains no whitespace. -/
def goodWords (ws : List (List Char)) : Prop :=
  ∀ w ∈ ws, w ≠ [] ∧ ∀ c ∈ w, isPyWs c = false

theorem splitGo_goodWords :
    ∀ (l cur : List Char), (∀ c ∈ cur, isPyWs c = false) →
      goodWords (splitGo cur l) := by
  intro l
  induction l with
  | nil =>
    intro cur hcur
    simp only [splitGo]
    by_cases hc : cur = []
    · simp [hc, goodWords]
    · simp only [hc, if_false]
      intro w hw
      rw [List.mem_singleton] at hw
      subst hw
      refine ⟨by simpa using hc, ?_⟩
      intro c hc'
      exact hcur c (List.mem_reverse.mp hc')
  | cons c rest ih =>
    intro cur hcur
    simp only [splitGo]
    by_cases hws : isPyWs c = true
    · simp only [hws, if_true]
      by_cases hc : cur = []
      · simp only [hc, if_true]
        exact ih [] (by simp)
      · simp only [hc, if_false]
        intro w hw
        rcases List.mem_cons.mp hw with h | h
        · subst h
          refine ⟨by simpa using hc, ?_⟩
          intro x hx
          exact hcur x (List.mem_reverse.mp hx)
        · exact ih [] (by simp) w h
    · simp only [hws, Bool.false_eq_true, if_false]
      apply ih
      intro x hx
      rcases List.mem_cons.mp hx with h | h
      · subst h; exact eq_false_of_ne_true hws
      · exact hcur x h

theorem pySplitWs_goodWords (l : List Char) : goodWords (pySplitWs l) :=
  splitGo_goodWords l [] (by simp)

theorem splitGo_append_word :
    ∀ (w : List Char), (∀ c ∈ w, isPyWs c = false) →
      ∀ (cur tail : List Char),
        splitGo cur (w ++ tail) = splitGo (w.reverse ++ cur) tail := by
  intro w
  induction w with
  | nil => intro _ cur tail; simp
  | cons c w' ih =>
    intro h cur tail
    have hc : isPyWs c = false := h c (List.mem_cons_self _ _)
    have hg : splitGo cur (c :: w' ++ tail) = splitGo (c :: cur) (w' ++ tail) := by
      simp [splitGo, hc]
    rw [hg, ih (fun x hx => h x (List.mem_cons_of_mem _ hx)) (c :: cur) tail]
    simp [List.reverse_cons, List.append_assoc]

theorem pySplitWs_joinSpace :
    ∀ (ws : List (List Char)), goodWords ws → pySplitWs (joinSpace ws) = ws := by
  intro ws
  induction ws with
  | nil => intro _; rfl
  | cons w t ih =>
    intro h
    have hw := h w (List.mem_cons_self _ _)
    have hwrev : w.reverse ≠ [] := by simpa using hw.1
    cases t with
    | nil =>
      show splitGo [] (joinSpace [w]) = [w]
      have : joinSpace [w] = w ++ [] := by simp [joinSpace]
      rw [this, splitGo_append_word w hw.2 [] []]
      simp only [List.append_nil, splitGo, hwrev, if_false]
      simp
    | cons x t2 =>
      show splitGo [] (joinSpace (w :: x :: t2)) = w :: x :: t2
      have hj : joinSpace (w :: x :: t2) = w ++ ' ' :: joinSpace (x :: t2) := rfl
      rw [hj, splitGo_append_word w hw.2 [] _]
      simp only [List.append_nil, splitGo]
      have hsp : isPyWs ' ' = true := by decide
      simp only [hsp, if_true, hwrev, if_false]
      rw [List.reverse_reverse]
      have := ih (fun y hy => h y (List.mem_cons_of_mem _ hy))
      rw [show splitGo [] (joinSpace (x :: t2)) = pySplitWs (joinSpace (x :: t2)) from rfl,
        this]

theorem splitGo_replCRLF :
    ∀ (l cur : List Char), splitGo cur (replCRLF l) = splitGo cur l := by
  intro l
  induction l using replCRLF.induct with
  | case1 t ih =>
    intro cur
    have h1 : replCRLF ('\r' :: '\n' :: t) = '\n' :: replCRLF t := rfl
    rw [h1]
    have hr : isPyWs '\r' = true := by decide
    have hn : isPyWs '\n' = true := by decide
    simp only [splitGo, hr, hn, if_true]
    by_cases hc : cur = []
    · simp [hc, ih]
    · simp [hc, ih]
  | case2 c t hside ih =>
    intro cur
    have h1 : replCRLF (c :: t) = c :: replCRLF t := by
      rw [replCRLF]
      exact hside
    rw [h1]
    simp only [splitGo]
    by_cases hws : isPyWs c = true
    · simp only [hws, if_true]
      by_cases hc : cur = []
      · simp [hc, ih]
      · simp [hc, ih]
    · simp only [hws, Bool.false_eq_true, if_false]
      exact ih (c :: cur)
  | case3 => intro cur; rfl

theorem splitGo_map_wsCompat (f : Char → Char)
    (hf : ∀ c, isPyWs (f c) = isPyWs c ∧ (isPyWs c = false → f c = c)) :
    ∀ (l cur : List Char), splitGo cur (l.map f) = splitGo cur l := by
  intro l
  induction l with
  | nil => intro cur; rfl
  | cons c t ih =>
    intro cur
    rw [List.map_cons]
    by_cases hws : isPyWs c = true
    · have hfc : isPyWs (f c) = true := by rw [(hf c).1]; exact hws
      simp only [splitGo, hws, hfc, if_true]
      by_cases hcur : cur = []
      · simp only [hcur, if_true]; exact ih []
      · simp only [hcur, if_false]; rw [ih []]
    · have hfc : f c = c := (hf c).2 (eq_false_of_ne_true hws)
      rw [hfc]
      simp only [splitGo, hws, Bool.false_eq_true, if_false]
      exact ih (c :: cur)

theorem splitGo_nbspMap :
    ∀ (l cur : List Char), splitGo cur (nbspMap l) = splitGo cur l := by
  intro l cur
  unfold nbspMap
  apply splitGo_map_wsCompat
  intro c
  constructor
  · by_cases h : (c == Char.ofNat 160) = true
    · have hc := eq_of_beq h
      subst hc
      decide
    · simp [h]
  · intro hnws
    by_cases h : (c == Char.ofNat 160) = true
    · have hc := eq_of_beq h
      subst hc
      have : isPyWs (Char.ofNat 160) = true := by decide
      rw [this] at hnws
      simp at hnws
    · simp [h]

theorem splitGo_collapseAux :
    ∀ (l : List Char),
      (∀ cur, splitGo cur (collapseAux false l) = splitGo cur l) ∧
      splitGo [] (collapseAux true l) = splitGo [] l := by
  intro l
  induction l with
  | nil => exact ⟨fun cur => rfl, rfl⟩
  | cons c t ih =>
    by_cases hws : isPyWs c = true
    · constructor
      · intro cur
        have h1 : collapseAux false (c :: t) = ' ' :: collapseAux true t := by
          simp [collapseAux, hws]
        rw [h1]
        have hsp : isPyWs ' ' = true := by decide
        simp only [splitGo, hsp, hws, if_true]
        by_cases hcur : cur = []
        · simp only [hcur, if_true]
          exact ih.2
        · simp only [hcur, if_false]
          rw [ih.2]
      · have h1 : collapseAux true (c :: t) = collapseAux true t := by
          simp [collapseAux, hws]
        rw [h1, ih.2]
        simp only [splitGo, hws, if_true]
    · constructor
      · intro cur
        have h1 : collapseAux false (c :: t) = c :: collapseAux false t := by
          simp [collapseAux, hws]
        rw [h1]
        simp only [splitGo, hws, Bool.false_eq_true, if_false]
        exact ih.1 (c :: cur)
      · have h1 : collapseAux true (c :: t) = c :: collapseAux false t := by
          simp [collapseAux, hws]
        rw [h1]
        simp only [splitGo, hws, Bool.false_eq_true, if_false]
        exact ih.1 [c]

theorem splitGo_dropWhile :
    ∀ (l : List Char), splitGo [] (l.dropWhile isPyWs) = splitGo [] l := by
  intro l
  induction l with
  | nil => rfl
  | cons c t ih =>
    rw [List.dropWhile_cons]
    by_cases hws : isPyWs c = true
    · simp only [hws, if_true]
      rw [ih]
      simp [splitGo, hws]
    · simp [hws]

theorem splitGo_of_all_ws :
    ∀ (l : List Char), (∀ c ∈ l, isPyWs c = true) →
      ∀ cur, splitGo cur l = if cur = [] then [] else [cur.reverse] := by
  intro l
  induction l with
  | nil => intro _ cur; rfl
  | cons c t ih =>
    intro h cur
    have hws : isPyWs c = true := h c (List.mem_cons_self _ _)
    simp only [splitGo, hws, if_true]
    have ht := ih (fun x hx => h x (List.mem_cons_of_mem _ hx))
    by_cases hcur : cur = []
    · simp only [hcur, if_true]
      rw [ht []]
      simp
    · simp only [hcur, if_false]
      rw [ht []]
      simp

theorem stripRight_eq_nil :
    ∀ {l : List Char}, stripRight l = [] → ∀ c ∈ l, isPyWs c = true := by
  intro l
  induction l with
  | nil => intro _ c hc; simp at hc
  | cons a t ih =>
    intro h c hc
    simp only [stripRight] at h
    cases hr : stripRight t with
    | nil =>
      rw [hr] at h
      by_cases hws : isPyWs a = true
      · rcases List.mem_cons.mp hc with h' | h'
        · subst h'; exact hws
        · exact ih hr c h'
      · simp [hws] at h
    | cons y ys => rw [hr] at h; simp at h

theorem splitGo_stripRight :
    ∀ (l : List Char), ∀ cur, splitGo cur (stripRight l) = splitGo cur l := by
  intro l
  induction l with
  | nil => intro cur; rfl
  | cons c t ih =>
    intro cur
    cases hr : stripRight t with
    | nil =>
      have hall : ∀ x ∈ t, isPyWs x = true := stripRight_eq_nil hr
      by_cases hws : isPyWs c = true
      · have h1 : stripRight (c :: t) = [] := by
          simp [stripRight, hr, hws]
        rw [h1]
        simp only [splitGo, hws, if_true]
        by_cases hcur : cur = []
        · simp only [hcur, if_true]
          rw [splitGo_of_all_ws t hall []]
          simp [splitGo]
        · simp only [hcur, if_false]
          rw [splitGo_of_all_ws t hall []]
          simp [splitGo, hcur]
      · have h1 : stripRight (c :: t) = [c] := by
          simp [stripRight, hr, hws]
        rw [h1]
        simp only [splitGo, hws, Bool.false_eq_true, if_false]
        rw [splitGo_of_all_ws t hall (c :: cur)]
    | cons y ys =>
      have h1 : stripRight (c :: t) = c :: stripRight t := by
        simp only [stripRight, hr]
      rw [h1]
      simp only [splitGo]
      by_cases hws : isPyWs c = true
      · simp only [hws, if_true]
        by_cases hcur : cur = []
        · simp only [hcur, if_true]; exact ih []
        · simp only [hcur, if_false]; rw [ih []]
      · simp only [hws, Bool.false_eq_true, if_false]
        exact ih (c :: cur)

theorem pySplitWs_pyStrip (l : List Char) : pySplitWs (pyStrip l) = pySplitWs l := by
  unfold pySplitWs pyStrip
  rw [splitGo_stripRight, splitGo_dropWhile]

/-- Normalisation does not change the word sequence of a text. -/
theorem pySplitWs_clean_text (l : List Char) :
    pySplitWs (clean_text l) = pySplitWs l := by
  unfold clean_text pyStrip pySplitWs
  rw [splitGo_stripRight, splitGo_dropWhile, (splitGo_collapseAux _).1,
    splitGo_nbspMap, splitGo_replCRLF]

theorem splitGo_ne_nil :
    ∀ (l cur : List Char), cur ≠ [] → splitGo cur l ≠ [] := by
  intro l
  induction l with
  | nil => intro cur h; simp [splitGo, h]
  | cons c t ih =>
    intro cur h
    simp only [splitGo]
    by_cases hws : isPyWs c = true
    · simp [hws, h]
    · simp only [hws, Bool.false_eq_true, if_false]
      exact ih (c :: cur) (by simp)

theorem clean_text_nil_of_strip_nil {l : List Char} (h : pyStrip l = []) :
    clean_text l = [] := by
  have hall : ∀ c ∈ l, isPyWs c = true := by
    intro c hc
    have hdw : ∀ x ∈ l.dropWhile isPyWs, isPyWs x = true := stripRight_eq_nil h
    have hsplit := List.takeWhile_append_dropWhile (p := isPyWs) (l := l)
    rw [← hsplit] at hc
    rcases List.mem_append.mp hc with h' | h'
    · exact List.mem_takeWhile_imp h'
    · exact hdw c h'
  have hsplitnil : pySplitWs (clean_text l) = [] := by
    rw [pySplitWs_clean_text]
    unfold pySplitWs
    rw [splitGo_of_all_ws l hall []]
    simp
  cases hy : clean_text l with
  | nil => rfl
  | cons c rest =>
    have hhead : isPyWs c = false := clean_text_head l c (by rw [hy]; rfl)
    rw [hy] at hsplitnil
    unfold pySplitWs at hsplitnil
    simp only [splitGo, hhead, Bool.false_eq_true, if_false] at hsplitnil
    exact absurd hsplitnil (splitGo_ne_nil rest [c] (by simp))

/-- Loop of utils.word_window_chunk, at the level of word lists:
while start < len(words): emit words[start : start + chunk_size], stop
if the window end reached the end, else advance start by
chunk_size - overlap.  The first Nat argument is an iteration counter
bounding the number of loop turns; word_window_chunk passes
words.length, which suffices whenever overlap_words < chunk_size_words
(the caller contract; the fuel-instrumented word_window_chunkFuel model
below covers the unrestricted loop). -/
def wwcGo {α : Type} (words : List α) (csw osw : Nat) : Nat → Nat → List (List α)
  | 0, _ => []
  | n + 1, start =>
    if start < words.length then
      ((words.drop start).take csw) ::
        (if words.length ≤ start + csw then []
         else wwcGo words csw osw n (start + (csw - osw)))
    else []

/-- Model of utils.word_window_chunk: split the text into words; if it
fits in one window return the single joined chunk, else run the sliding
window loop and join each window with single spaces. -/
def word_window_chunk (text : List Char) (csw osw : Nat) : List (List Char) :=
  let words := pySplitWs text
  if words.length ≤ csw then [joinSpace words]
  else (wwcGo words csw osw words.length 0).map joinSpace

theorem wwcGo_mem_subset {α : Type} (words : List α) (csw osw : Nat) :
    ∀ (n start : Nat) (c : List α), c ∈ wwcGo words csw osw n start →
      ∀ w ∈ c, w ∈ words := by
  intro n
  induction n with
  | zero => intro start c hc; simp [wwcGo] at hc
  | succ m ih =>
    intro start c hc w hw
    simp only [wwcGo] at hc
    by_cases hs : start < words.length
    · simp only [hs, if_true] at hc
      rcases List.mem_cons.mp hc with h | h
      · subst h
        exact List.drop_subset start words (List.take_subset csw _ hw)
      · by_cases hbr : words.length ≤ start + csw
        · simp [hbr] at h
        · simp only [hbr, if_false] at h
          exact ih _ c h w hw
    · simp [hs] at hc

theorem wwcGo_chunk_le {α : Type} (words : List α) (csw osw : Nat) :
    ∀ (n start : Nat) (c : List α), c ∈ wwcGo words csw osw n start →
      c.length ≤ csw := by
  intro n
  induction n with
  | zero => intro start c hc; simp [wwcGo] at hc
  | succ m ih =>
    intro start c hc
    simp only [wwcGo] at hc
    by_cases hs : start < words.length
    · simp only [hs, if_true] at hc
      rcases List.mem_cons.mp hc with h | h
      · subst h
        rw [List.length_take]
        exact Nat.min_le_left _ _
      · by_cases hbr : words.length ≤ start + csw
        · simp [hbr] at h
        · simp only [hbr, if_false] at h
          exact ih _ c h
    · simp [hs] at hc

theorem wwcGo_head {α : Type} (words : List α) (csw osw : Nat) (m start : Nat)
    (hs : start < words.length) :
    (wwcGo words csw osw (m + 1) start)[0]? = some ((words.drop start).take csw) := by
  simp [wwcGo, hs]

theorem wwcGo_overlap {α : Type} (words : List α) (csw osw : Nat) (h : osw < csw) :
    ∀ (n start : Nat), words.length ≤ start + n →
      ∀ (i : Nat) (c c' : List α),
        (wwcGo words csw osw n start)[i]? = some c →
        (wwcGo words csw osw n start)[i + 1]? = some c' →
        c.drop (c.length - osw) = c'.take osw := by
  intro n
  induction n with
  | zero => intro start _ i c c' hc _; simp [wwcGo] at hc
  | succ m ih =>
    intro start hn i c c' hc hc'
    simp only [wwcGo] at hc hc'
    by_cases hs : start < words.length
    · simp only [hs, if_true] at hc hc'
      by_cases hbr : words.length ≤ start + csw
      · simp only [hbr, if_true] at hc hc'
        cases i with
        | zero => simp at hc'
        | succ j => simp at hc
      · simp only [hbr, if_false] at hc hc'
        push_neg at hbr
        cases i with
        | zero =>
          rw [List.getElem?_cons_zero] at hc
          rw [List.getElem?_cons_succ] at hc'
          injection hc with hc
          subst hc
          have hs' : start + (csw - osw) < words.length := by omega
          cases m with
          | zero => simp [wwcGo] at hc'
          | succ m' =>
            rw [wwcGo_head words csw osw m' _ hs'] at hc'
            injection hc' with hc'
            subst hc'
            have hlen : ((words.drop start).take csw).length = csw := by
              simp [List.length_take, List.length_drop]
              omega
            rw [hlen, List.drop_take, List.drop_drop, List.take_take]
            have h1 : csw - (csw - osw) = osw := by omega
            have h2 : min osw csw = osw := by omega
            rw [h1, h2]
        | succ j =>
          rw [List.getElem?_cons_succ] at hc hc'
          exact ih (start + (csw - osw)) (by omega) j c c' hc hc'
    · simp [hs] at hc

theorem wwcGo_recon {α : Type} (words : List α) (csw osw : Nat) (h : osw < csw) :
    ∀ (n start : Nat), start < words.length → words.length ≤ start + n →
      ((wwcGo words csw osw n start).map (fun c => c.drop osw)).flatten =
        words.drop (start + osw) := by
  intro n
  induction n with
  | zero => intro start h1 h2; omega
  | succ m ih =>
    intro start hs hn
    simp only [wwcGo, hs, if_true]
    by_cases hbr : words.length ≤ start + csw
    · simp only [hbr, if_true, List.map_cons, List.map_nil, List.flatten_cons,
        List.flatten_nil, List.append_nil]
      rw [List.drop_take, List.drop_drop]
      apply List.take_of_length_le
      simp [List.length_drop]
      omega
    · simp only [hbr, if_false, List.map_cons, List.flatten_cons]
      push_neg at hbr
      rw [ih (start + (csw - osw)) (by omega) (by omega)]
      rw [List.drop_take, List.drop_drop]
      have e2 : words.drop (start + (csw - osw) + osw) =
          (words.drop (start + osw)).drop (csw - osw) := by
        rw [List.drop_drop]
        congr 1
        omega
      rw [e2]
      exact List.take_append_drop _ _

/-- De-duplicating concatenation: the first chunk in full, every later
chunk with its first osw (overlapping) words removed. -/
def dedupWordLists {α : Type} (osw : Nat) : List (List α) → List α
  | [] => []
  | c :: cs => c ++ (cs.map (fun x => x.drop osw)).flatten

theorem wwcGo_dedup {α : Type} (words : List α) (csw osw : Nat)
    (h : osw < csw) (hlen : csw < words.length) :
    dedupWordLists osw (wwcGo words csw osw words.length 0) = words := by
  obtain ⟨m, hm⟩ : ∃ m, words.length = m + 1 := ⟨words.length - 1, by omega⟩
  have hrec := wwcGo_recon words csw osw h m (0 + (csw - osw))
    (by omega) (by omega)
  rw [hm]
  simp only [wwcGo]
  rw [if_pos (by omega : 0 < words.length)]
  rw [if_neg (by omega : ¬ words.length ≤ 0 + csw)]
  simp only [dedupWordLists]
  rw [hrec]
  have e : 0 + (csw - osw) + osw = csw := by omega
  rw [e, List.drop_zero]
  exact List.take_append_drop csw words

/-- C4: utils.word_window_chunk with overlap_words < chunk_size_words:
every emitted chunk has at most chunk_size_words words, and whenever the
text has more than chunk_size_words words the trailing overlap_words
words of each chunk equal the leading overlap_words words of the next
chunk. -/
theorem word_window_chunk_spec :
    ∀ (text : List Char) (S O : Nat), O < S →
      (∀ c ∈ word_window_chunk text S O, (pySplitWs c).length ≤ S) ∧
      (S < (pySplitWs text).length →
        ∀ (i : Nat) (ci ci1 : List Char),
          (word_window_chunk text S O)[i]? = some ci →
          (word_window_chunk text S O)[i + 1]? = some ci1 →
          (pySplitWs ci).drop ((pySplitWs ci).length - O) = (pySplitWs ci1).take O) := by
  intro text S O hOS
  have hgood := pySplitWs_goodWords text
  constructor
  · intro c hc
    unfold word_window_chunk at hc
    by_cases hfit : (pySplitWs text).length ≤ S
    · simp only [hfit, if_true, List.mem_singleton] at hc
      subst hc
      rw [pySplitWs_joinSpace _ hgood]
      exact hfit
    · simp only [hfit, if_false, List.mem_map] at hc
      obtain ⟨c0, hc0, hceq⟩ := hc
      subst hceq
      have hc0good : goodWords c0 := by
        intro w hw
        exact hgood w (wwcGo_mem_subset _ _ _ _ _ c0 hc0 w hw)
      rw [pySplitWs_joinSpace _ hc0good]
      exact wwcGo_chunk_le _ _ _ _ _ c0 hc0
  · intro hlong i ci ci1 hci hci1
    unfold word_window_chunk at hci hci1
    have hfit : ¬ (pySplitWs text).length ≤ S := by omega
    simp only [hfit, if_false, List.getElem?_map] at hci hci1
    cases hc0 : (wwcGo (pySplitWs text) S O (pySplitWs text).length 0)[i]? with
    | none => rw [hc0] at hci; simp at hci
    | some c0 =>
      cases hc1 : (wwcGo (pySplitWs text) S O (pySplitWs text).length 0)[i + 1]? with
      | none => rw [hc1] at hci1; simp at hci1
      | some c1 =>
        rw [hc0] at hci
        rw [hc1] at hci1
        simp only [Option.map_some'] at hci hci1
        injection hci with hci
        injection hci1 with hci1
        subst hci
        subst hci1
        have hg0 : goodWords c0 := by
          intro w hw
          exact hgood w (wwcGo_mem_subset _ _ _ _ _ c0 (List.getElem?_mem hc0) w hw)
        have hg1 : goodWords c1 := by
          intro w hw
          exact hgood w (wwcGo_mem_subset _ _ _ _ _ c1 (List.getElem?_mem hc1) w hw)
        rw [pySplitWs_joinSpace _ hg0, pySplitWs_joinSpace _ hg1]
        exact wwcGo_overlap _ S O hOS _ 0 (by omega) i c0 c1 hc0 hc1

def c4sample : List Char := "a b c d e".toList

def c4chunk0 : List Char := "a b".toList

def c4chunk1 : List Char := "b c".toList

/-- Witness for word_window_chunk_spec at text "a b c d e",
chunk_size_words 2, overlap_words 1: the first chunk "a b" has at most 2
words, and its trailing word equals the leading word of "b c". -/
theorem word_window_chunk_spec_witness :
    (pySplitWs c4chunk0).length ≤ 2 ∧
    (pySplitWs c4chunk0).drop ((pySplitWs c4chunk0).length - 1) =
      (pySplitWs c4chunk1).take 1 :=
  ⟨(word_window_chunk_spec c4sample 2 1 (by decide)).1 c4chunk0 (by decide),
   (word_window_chunk_spec c4sample 2 1 (by decide)).2 (by decide) 0 c4chunk0 c4chunk1
     (by decide) (by decide)⟩

def isHeadTagChar (c : Char) : Bool := c == 'h' || c == 'H'

def isHeadDigit (c : Char) : Bool := decide ('1' ≤ c) && decide (c ≤ '6')

/-- Does the list start with a closing heading tag, as matched by the
regex fragment </h[1-6]> (IGNORECASE)? -/
def isClosingTagAt : List Char → Bool
  | '<' :: '/' :: h :: d :: '>' :: _ => isHeadTagChar h && isHeadDigit d
  | _ => false

/-- Index of the first closing heading tag in the list, if any (the
lazy body of the heading regex runs to the first such tag). -/
def findClosing : List Char → Option Nat
  | [] => none
  | c :: rest =>
    if isClosingTagAt (c :: rest) then some 0
    else (findClosing rest).map (fun k => k + 1)

/-- Attempt to match an HTML heading element at the current position,
just after a consumed opening angle bracket: models the regex
<h[1-6][^>]*>(.*?)</h[1-6]> of utils.split_by_headings with IGNORECASE
and DOTALL.  On success returns the Markdown replacement
"\n# " + body + "\n" together with the number of remaining characters
the match consumed. -/
def tryHeading (rest : List Char) : Option (List Char × Nat) :=
  match rest with
  | h :: d :: rest2 =>
    if isHeadTagChar h && isHeadDigit d then
      match rest2.findIdx? (fun c => c == '>') with
      | none => none
      | some j =>
        let afterOpen := rest2.drop (j + 1)
        match findClosing afterOpen with
        | none => none
        | some b =>
          some ('\n' :: '#' :: ' ' :: (afterOpen.take b ++ ['\n']), 2 + (j + 1) + b + 5)
    else none
  | _ => none

/-- Scanner of the h_re.sub step of utils.split_by_headings: copy
characters, rewriting each HTML heading element to its Markdown form.
The Nat counter bounds the number of scanner steps; hSub passes the
text length, which always suffices because every step consumes at least
one character. -/
def hSubGo : Nat → List Char → List Char
  | _, [] => []
  | 0, l => l
  | n + 1, c :: rest =>
    if c == '<' then
      match tryHeading rest with
      | some (repl, k) => repl ++ hSubGo n (rest.drop k)
      | none => c :: hSubGo n rest
    else c :: hSubGo n rest

/-- The h_re.sub step of utils.split_by_headings. -/
def hSub (l : List Char) : List Char := hSubGo l.length l

/-- Scanner of re.split(r'(?m)^(?=#\s)', text): close the current part
before every line start at which a '#' followed by whitespace begins.
The Bool state records whether the scanner is at a line start. -/
def sbhGo : Bool → List Char → List Char → List (List Char)
  | _, cur, [] => [cur.reverse]
  | atLS, cur, c :: rest =>
    if atLS && c == '#' && (match rest with | w :: _ => isPyWs w | [] => false) then
      cur.reverse :: sbhGo false [c] rest
    else
      sbhGo (c == '\n') (c :: cur) rest

/-- Model of utils.split_by_headings: rewrite HTML headings to Markdown
form, split before every Markdown heading line, strip each part and
keep the non-empty ones. -/
def split_by_headings (text : List Char) : List (List Char) :=
  ((sbhGo true [] (hSub text)).map pyStrip).filter (fun p => !p.isEmpty)

/-- Model of utils.chunk_text: split into heading blocks (the whole
text if there are none), normalise each block, emit it whole when it
fits in one window and window-chunk it otherwise, skipping blocks that
normalise to nothing. -/
def chunk_text (text : List Char) (csw osw : Nat) : List (List Char) :=
  let blocks :=
    match split_by_headings text with
    | [] => [text]
    | bs => bs
  (blocks.map (fun b =>
    let b_clean := clean_text b
    if b_clean.isEmpty then []
    else if (pySplitWs b_clean).length ≤ csw then [b_clean]
    else word_window_chunk b_clean csw osw)).flatten

/-- A text with no opening angle bracket (the HTML rewrite leaves it
unchanged) and no line starting with '#' followed by whitespace (the
Markdown split yields one block): heading-free in the sense of the
chunker. -/
def noHeadingAt : Bool → List Char → Bool
  | _, [] => true
  | atLS, c :: rest =>
    (!(atLS && c == '#' && (match rest with | w :: _ => isPyWs w | [] => false))) &&
      noHeadingAt (c == '\n') rest

def headingFree (text : List Char) : Bool :=
  (!text.contains '<') && noHeadingAt true text

theorem hSubGo_no_lt :
    ∀ (n : Nat) (l : List Char), l.contains '<' = false → hSubGo n l = l := by
  intro n
  induction n with
  | zero =>
    intro l _
    cases l with
    | nil => rfl
    | cons c rest => rfl
  | succ m ih =>
    intro l hl
    cases l with
    | nil => rfl
    | cons c rest =>
      have hc : (c == '<') = false := by
        rcases Bool.eq_false_or_eq_true (c == '<') with h | h
        · have hc' : c = '<' := eq_of_beq h
          subst hc'
          simp [List.contains_cons] at hl
        · exact h
      have hrest : rest.contains '<' = false := by
        simp only [List.contains_cons, Bool.or_eq_false_iff] at hl
        exact hl.2
      simp only [hSubGo, hc, Bool.false_eq_true, if_false]
      rw [ih rest hrest]

theorem sbhGo_noHeading :
    ∀ (l : List Char) (b : Bool) (cur : List Char),
      noHeadingAt b l = true → sbhGo b cur l = [cur.reverse ++ l] := by
  intro l
  induction l with
  | nil => intro b cur _; simp [sbhGo]
  | cons c rest ih =>
    intro b cur h
    simp only [noHeadingAt, Bool.and_eq_true, Bool.not_eq_true'] at h
    simp only [sbhGo, h.1, Bool.false_eq_true, if_false]
    rw [ih (c == '\n') (c :: cur) h.2]
    simp

/-- De-duplicating word concatenation over chunk strings: the first
chunk's words, then every later chunk's words with its first osw
(overlapping) words removed. -/
def dedupChunkWords (osw : Nat) (chunks : List (List Char)) : List (List Char) :=
  match chunks with
  | [] => []
  | c :: cs => pySplitWs c ++ (cs.map (fun x => (pySplitWs x).drop osw)).flatten

theorem dedup_map_joinSpace (O : Nat) (L : List (List (List Char)))
    (hg : ∀ c ∈ L, goodWords c) :
    dedupChunkWords O (L.map joinSpace) = dedupWordLists O L := by
  cases L with
  | nil => rfl
  | cons c cs =>
    simp only [List.map_cons, dedupChunkWords, dedupWordLists]
    rw [pySplitWs_joinSpace c (hg c (List.mem_cons_self _ _))]
    congr 1
    rw [List.map_map]
    have hmap : List.map ((fun x => List.drop O (pySplitWs x)) ∘ joinSpace) cs =
        List.map (fun x => List.drop O x) cs := by
      apply List.map_congr_left
      intro x hx
      simp only [Function.comp_apply]
      rw [pySplitWs_joinSpace x (hg x (List.mem_cons_of_mem _ hx))]
    rw [hmap]

theorem pyStrip_eq_nil_all_ws {l : List Char} (h : pyStrip l = []) :
    ∀ c ∈ l, isPyWs c = true := by
  intro c hc
  have hdw : ∀ x ∈ l.dropWhile isPyWs, isPyWs x = true := stripRight_eq_nil h
  have hsplit := List.takeWhile_append_dropWhile (p := isPyWs) (l := l)
  rw [← hsplit] at hc
  rcases List.mem_append.mp hc with h' | h'
  · exact List.mem_takeWhile_imp h'
  · exact hdw c h'

theorem chunk_text_headingFree_eq (text : List Char) (S O : Nat)
    (hhf : headingFree text = true) :
    ∃ bc : List Char, pySplitWs bc = pySplitWs text ∧
      chunk_text text S O =
        (if bc.isEmpty then []
         else if (pySplitWs bc).length ≤ S then [bc]
         else word_window_chunk bc S O) := by
  simp only [headingFree, Bool.and_eq_true, Bool.not_eq_true'] at hhf
  obtain ⟨hlt, hnh⟩ := hhf
  have hsbh : sbhGo true [] (hSub text) = [text] := by
    rw [show hSub text = text from hSubGo_no_lt _ _ hlt,
      sbhGo_noHeading text true [] hnh]
    simp
  by_cases hstrip : pyStrip text = []
  · refine ⟨clean_text text, by rw [pySplitWs_clean_text], ?_⟩
    have hsplitnil : split_by_headings text = [] := by
      unfold split_by_headings
      rw [hsbh]
      simp [hstrip]
    have hct : clean_text text = [] := clean_text_nil_of_strip_nil hstrip
    unfold chunk_text
    rw [hsplitnil]
    simp [hct]
  · refine ⟨clean_text (pyStrip text),
      by rw [pySplitWs_clean_text, pySplitWs_pyStrip], ?_⟩
    have hsplit1 : split_by_headings text = [pyStrip text] := by
      unfold split_by_headings
      rw [hsbh]
      simp [List.filter_cons, hstrip]
    unfold chunk_text
    rw [hsplit1]
    simp

/-- C9: after normalisation, for every heading-free text and every
parameter pair with overlap_words < chunk_size_words, concatenating the
chunks of utils.chunk_text with each later chunk's leading overlap
words removed reconstructs exactly the word sequence of the normalised
source text. -/
theorem chunk_text_reconstruction :
    ∀ (text : List Char) (S O : Nat), O < S → headingFree text = true →
      dedupChunkWords O (chunk_text text S O) = pySplitWs (clean_text text) := by
  intro text S O hOS hhf
  obtain ⟨bc, hbc, hchunks⟩ := chunk_text_headingFree_eq text S O hhf
  rw [hchunks, pySplitWs_clean_text, ← hbc]
  by_cases hbe : bc.isEmpty = true
  · have hbnil : bc = [] := List.isEmpty_iff.mp hbe
    subst hbnil
    simp [dedupChunkWords]
    decide
  · simp only [hbe, Bool.false_eq_true, if_false]
    by_cases hfit : (pySplitWs bc).length ≤ S
    · simp only [hfit, if_true]
      simp [dedupChunkWords]
    · simp only [hfit, if_false]
      unfold word_window_chunk
      simp only [hfit, if_false]
      have hg : ∀ c ∈ wwcGo (pySplitWs bc) S O (pySplitWs bc).length 0, goodWords c := by
        intro c hc w hw
        exact pySplitWs_goodWords bc w (wwcGo_mem_subset _ _ _ _ _ c hc w hw)
      rw [dedup_map_joinSpace O _ hg]
      have hlen : S < (pySplitWs bc).length := by omega
      have := wwcGo_dedup (pySplitWs bc) S O hOS hlen
      simp only [dedupWordLists] at this ⊢
      exact this

def c9sample : List Char := "hello world again".toList

/-- Witness for chunk_text_reconstruction at the heading-free text
"hello world again" with chunk_size_words 2, overlap_words 1. -/
theorem chunk_text_reconstruction_witness :
    dedupChunkWords 1 (chunk_text c9sample 2 1) = pySplitWs (clean_text c9sample) :=
  chunk_text_reconstruction c9sample 2 1 (by decide) (by decide)

/-- Normalise a Python slice index against a list length: negative
indices count from the end (clamped at 0), positive ones are clamped at
the length. -/
def pyIdx (len : Nat) (i : Int) : Nat :=
  if i < 0 then (if i + len < 0 then 0 else (i + len).toNat)
  else min i.toNat len

/-- Python slice l[a:b]. -/
def pySlice {α : Type} (l : List α) (a b : Int) : List α :=
  (l.take (pyIdx l.length b)).drop (pyIdx l.length a)

/-- Unrestricted model of the while loop of utils.word_window_chunk,
with Python int arithmetic (Int), Python slicing and the accumulator
list of the source.  The loop itself has no termination guarantee, so
the model is instrumented with a fuel counter: a `some` result is the
list the Python loop returns, a `none` result means the loop has not
terminated within `fuel` iterations.  A theorem proving the result is
`none` for every fuel therefore proves the loop never terminates. -/
def wwcFuelGo (words : List (List Char)) (csw osw : Int) :
    Nat → Int → List (List Char) → Option (List (List Char))
  | 0, _, _ => none
  | fuel + 1, start, chunks =>
    if start < (words.length : Int) then
      let e := start + csw
      let chunks2 := chunks ++ [joinSpace (pySlice words start e)]
      if (words.length : Int) ≤ e then some chunks2
      else wwcFuelGo words csw osw fuel (start + (csw - osw)) chunks2
    else some chunks

/-- Unrestricted model of utils.word_window_chunk: split into words,
return the single joined chunk when the text fits in one window, else
run the (fuel-instrumented) sliding-window loop from start = 0. -/
def word_window_chunkFuel (text : List Char) (csw osw : Int) (fuel : Nat) :
    Option (List (List Char)) :=
  let words := pySplitWs text
  if (words.length : Int) ≤ csw then some [joinSpace words]
  else wwcFuelGo words csw osw fuel 0 []

theorem wwcFuelGo_stuck (words : List (List Char)) (csw osw : Int)
    (hcs : 0 ≤ csw) (hso : csw ≤ osw) (hlen : csw < (words.length : Int)) :
    ∀ (fuel : Nat) (start : Int) (chunks : List (List Char)), start ≤ 0 →
      wwcFuelGo words csw osw fuel start chunks = none := by
  intro fuel
  induction fuel with
  | zero => intro start chunks _; rfl
  | succ n ih =>
    intro start chunks hstart
    have hpos : (0 : Int) < (words.length : Int) := by omega
    have hguard : start < (words.length : Int) := by omega
    have hbreak : ¬ ((words.length : Int) ≤ start + csw) := by omega
    simp only [wwcFuelGo, hguard, if_true, hbreak, if_false]
    exact ih (start + (csw - osw)) _ (by omega)

/-- C2 (behaviour of the code): utils.word_window_chunk performs no
validation of the chunk/overlap parameters.  For every text longer than
chunk_size_words words and every parameter pair with
overlap_words >= chunk_size_words >= 0, the sliding-window while loop
has a non-positive stride and never terminates: the fuel-instrumented
model returns none for every fuel bound, so the call neither returns
nor raises a configuration error. -/
theorem word_window_chunk_loops_forever :
    ∀ (text : List Char) (csw osw : Int) (fuel : Nat),
      0 ≤ csw → csw ≤ osw → csw < ((pySplitWs text).length : Int) →
      word_window_chunkFuel text csw osw fuel = none := by
  intro text csw osw fuel hcs hso hlen
  unfold word_window_chunkFuel
  rw [if_neg (by omega)]
  exact wwcFuelGo_stuck (pySplitWs text) csw osw hcs hso hlen fuel 0 [] le_rfl

def c2sample : List Char := "a b c".toList

/-- Witness for word_window_chunk_loops_forever: the three-word text
"a b c" with chunk_size_words = overlap_words = 2 makes the loop spin
without terminating (shown here at fuel bound 100). -/
theorem word_window_chunk_loops_forever_witness :
    word_window_chunkFuel c2sample 2 2 100 = none :=
  word_window_chunk_loops_forever c2sample 2 2 100 (by decide) (by decide) (by decide)

/-- Decimal digit writer for Python str(int) on naturals, instrumented
with a structural fuel counter (natToChars passes n + 1, which always
suffices since a number has at most n + 1 digits). -/
def natToCharsGo : Nat → Nat → List Char
  | 0, _ => []
  | fuel + 1, n =>
    if n < 10 then [Char.ofNat (48 + n)]
    else natToCharsGo fuel (n / 10) ++ [Char.ofNat (48 + n % 10)]

/-- Model of Python str(n) for a natural number (decimal). -/
def natToChars (n : Nat) : List Char := natToCharsGo (n + 1) n

theorem digitChar_toNat (n : Nat) (h : n < 10) :
    (Char.ofNat (48 + n)).toNat = 48 + n := by
  interval_cases n <;> decide

theorem natToCharsGo_decode :
    ∀ (fuel n acc : Nat), n < 10 ^ fuel →
      (natToCharsGo fuel n).foldl (fun a c => a * 10 + (c.toNat - 48)) acc =
        acc * 10 ^ (natToCharsGo fuel n).length + n := by
  intro fuel
  induction fuel with
  | zero =>
    intro n acc h
    simp only [pow_zero, Nat.lt_one_iff] at h
    subst h
    simp [natToCharsGo]
  | succ f ih =>
    intro n acc h
    by_cases h10 : n < 10
    · simp only [natToCharsGo, h10, if_true]
      simp only [List.foldl_cons, List.foldl_nil, List.length_singleton, pow_one]
      rw [digitChar_toNat n h10]
      omega
    · simp only [natToCharsGo, h10, if_false]
      rw [List.foldl_append]
      have hdiv : n / 10 < 10 ^ f := by
        rw [Nat.div_lt_iff_lt_mul (by norm_num : 0 < 10)]
        calc n < 10 ^ (f + 1) := h
          _ = 10 ^ f * 10 := by rw [pow_succ]
      rw [ih (n / 10) acc hdiv]
      simp only [List.foldl_cons, List.foldl_nil, List.length_append,
        List.length_singleton]
      rw [digitChar_toNat (n % 10) (Nat.mod_lt n (by norm_num))]
      rw [pow_succ]
      have hdm : n / 10 * 10 + (48 + n % 10 - 48) = n := by omega
      set L := (natToCharsGo f (n / 10)).length
      have : (acc * 10 ^ L + n / 10) * 10 + (48 + n % 10 - 48) =
          acc * (10 ^ L * 10) + (n / 10 * 10 + (48 + n % 10 - 48)) := by ring
      rw [this, hdm]

theorem natToChars_inj : ∀ (m n : Nat), natToChars m = natToChars n → m = n := by
  have hdec : ∀ k : Nat,
      (natToChars k).foldl (fun a c => a * 10 + (c.toNat - 48)) 0 = k := by
    intro k
    have hk : k < 10 ^ (k + 1) := by
      calc k < 10 ^ k := Nat.lt_pow_self (by norm_num) k
        _ ≤ 10 ^ (k + 1) := Nat.pow_le_pow_right (by norm_num) (Nat.le_succ k)
    unfold natToChars
    rw [natToCharsGo_decode (k + 1) k 0 hk]
    simp
  intro m n h
  have h1 := hdec m
  rw [h, hdec n] at h1
  exact h1.symm

/-- The canned refusal answer of rag.py. -/
def cannedRefusal : List Char :=
  "I can only answer questions about the provided policies. I don't have information on that.".toList

def unknownSrc : List Char := "unknown".toList

def naStr : List Char := "n/a".toList

/-- The citation marker substring the pipeline tests for:
"[source:" in answer. -/
def citationTag : List Char := "[source:".toList

def citePre : List Char := "\n\n[source: ".toList

def citeMid : List Char := ", chunk: ".toList

def citeEnd : List Char := "]".toList

def extrEnd : List Char := "]\n\n".toList

def extrNote : List Char := "Note: Answer is based solely on the provided policies.".toList

def dots : List Char := "...".toList

/-- Retrieval-result metadata, all fields optional (a dict in the
source; absent keys are none). -/
structure RMeta where
  filename : Option (List Char)
  source : Option (List Char)
  chunk_index : Option Nat
deriving DecidableEq

/-- One retrieval result of rag.py: {text, meta, distance} from
retrieve_top_k, plus the optional re-rank score added by
rerank_with_crossencoder.  Scores and distances are modelled as
rationals (only their ordering matters to the pipeline). -/
structure Res where
  text : Option (List Char)
  meta : RMeta
  distance : Option ℚ
  score : Option ℚ
deriving DecidableEq

/-- Python: meta.get("filename") or meta.get("source", "unknown") —
the filename when present and non-empty, else the source when the key
is present, else "unknown". -/
def srcRaw (m : RMeta) : List Char :=
  match m.filename with
  | some f =>
    if f.isEmpty then (match m.source with | some s => s | none => unknownSrc) else f
  | none => match m.source with | some s => s | none => unknownSrc

/-- Python: src.split("/")[-1], the suffix after the last slash. -/
def afterLastSlash (s : List Char) : List Char :=
  (s.reverse.takeWhile (fun c => c != '/')).reverse

/-- The "src" display value used in answers, citations and source
entries: strip any path prefix when a slash is present. -/
def displaySrc (m : RMeta) : List Char :=
  let src := srcRaw m
  if src.contains '/' then afterLastSlash src else src

/-- Python: meta.get("chunk_index", "n/a") as displayed in citations. -/
def idxStr (m : RMeta) : List Char :=
  match m.chunk_index with
  | some n => natToChars n
  | none => naStr

/-- Model of rag.should_refuse: refuse on no results; with re-ranking
and a score on the top result refuse iff the score is below the
threshold; otherwise fall back to the top result's raw L2 distance and
refuse iff it exceeds the fixed cap 1.5 of the source ("fixed sensible
L2 distance cap"); refuse never when the distance is missing. -/
def should_refuse (results : List Res) (re_ranked : Bool) (threshold : ℚ) : Bool :=
  match results with
  | [] => true
  | top :: _ =>
    match re_ranked, top.score with
    | true, some top_score => decide (top_score < threshold)
    | _, _ =>
      match top.distance with
      | none => false
      | some dist => decide (dist > (1.5 : ℚ))

/-- Model of rag.assemble_extractive_answer. -/
def assemble_extractive_answer (results : List Res) : List Char :=
  match results with
  | [] => cannedRefusal
  | top :: _ =>
    let text := pyStrip (match top.text with | some t => t | none => [])
    let excerpt := if text.length ≤ 800 then text else text.take 800 ++ dots
    excerpt ++ citePre ++ displaySrc top.meta ++ citeMid ++ idxStr top.meta ++
      extrEnd ++ extrNote

/-- One entry of the "sources" list of the answer object. -/
structure SourceEntry where
  source : List Char
  chunk_index : Option Nat
  snippet : List Char
deriving DecidableEq

/-- Model of rag._results_to_sources with the default snippet cap. -/
def _results_to_sources (results : List Res) : List SourceEntry :=
  results.map (fun r =>
    let text := pyStrip (match r.text with | some t => t | none => [])
    let snippet := if text.length ≤ 400 then text else text.take 400 ++ dots
    { source := displaySrc r.meta, chunk_index := r.meta.chunk_index,
      snippet := snippet })

/-- The {answer, sources, refused} object returned by the pipeline. -/
structure RAResult where
  answer : List Char
  sources : List SourceEntry
  refused : Bool
deriving DecidableEq

/-- Does the pattern occur as a leading segment of the list? -/
def leadsWith : List Char → List Char → Bool
  | [], _ => true
  | _ :: _, [] => false
  | a :: as, b :: bs => a == b && leadsWith as bs

/-- Python substring test: pat in l. -/
def containsSub (pat : List Char) : List Char → Bool
  | [] => leadsWith pat []
  | c :: t => leadsWith pat (c :: t) || containsSub pat t

/-- The answer of one query of a chromadb collection: per-query lists of
documents, metadatas and (optionally) distances, as read by
retrieve_top_k from the store's response. -/
structure QueryRes where
  documents : List (List Char)
  metadatas : List RMeta
  distances : Option (List (Option ℚ))

/-- A named chromadb collection, modelled by its query behaviour (an
arbitrary function: the embedding model and nearest-neighbour search
are external collaborators, so theorems hold for every behaviour). -/
structure CollectionData where
  queryFn : List Char → Nat → QueryRes

/-- The persistent vector store behind a persist directory: its named
collections.  A fresh or non-existent persist directory has none. -/
structure VectorStore where
  collections : List (List Char × CollectionData)

def documentsName : List Char := "documents".toList

def collectionMissingMsg : List Char := "Collection documents does not exist.".toList

/-- Modelled external collaborator (chromadb PersistentClient):
get_collection raises when the named collection does not exist — the
documented chromadb >= 0.4 behaviour; contrast the non-raising
get_or_create_collection used at ingest time.  The raised exception is
modelled with Except.error. -/
def get_collection (store : VectorStore) (name : List Char) :
    Except (List Char) CollectionData :=
  match store.collections.find? (fun p => p.1 == name) with
  | some p => Except.ok p.2
  | none => Except.error collectionMissingMsg

def emptyStore : VectorStore := ⟨[]⟩

/-- Model of rag.retrieve_top_k: get the "documents" collection (the
exception of get_collection propagates — there is no try/except in the
source), query it, and shape the response into result records; a
missing distances list yields none for every result. -/
def retrieve_top_k (store : VectorStore) (query : List Char) (k : Nat) :
    Except (List Char) (List Res) :=
  match get_collection store documentsName with
  | Except.error e => Except.error e
  | Except.ok collection =>
    let res := collection.queryFn query k
    let docs := res.documents
    let metas := res.metadatas
    let distances :=
      match res.distances with
      | some ds => ds
      | none => docs.map (fun _ => none)
    Except.ok ((docs.zip metas).enum.map (fun p =>
      { text := some p.2.1
        meta := p.2.2
        distance := (distances.get? p.1).join
        score := none }))

/-- Model of rag.retrieve_and_answer (lines 224-276).  External
collaborators are parameters: rerankFn models
rerank_with_crossencoder(query, results) — the unavailable-model path
returns the input unchanged, the scored path reorders and annotates,
and the theorems below hold for every such function; llm_answer models
generate_with_openrouter(build_prompt(query, re_ranked_list,
max_tokens), max_tokens) — an arbitrary optional string, since the
external model's output is unconstrained (build_prompt's output feeds
only this call, and max_tokens, gen_model and device feed only
build_prompt and the generator). -/
def retrieve_and_answer (store : VectorStore) (query : List Char) (top_k : Nat)
    (re_rank : Bool) (rerankFn : List Res → List Res)
    (llm_answer : Option (List Char)) (refusal_threshold : ℚ) :
    Except (List Char) RAResult :=
  match retrieve_top_k store query top_k with
  | Except.error e => Except.error e
  | Except.ok results =>
    let re_ranked_list := if re_rank then rerankFn results else results
    let refused := should_refuse re_ranked_list re_rank refusal_threshold
    if refused then
      Except.ok { answer := cannedRefusal, sources := [], refused := true }
    else
      let answer1 :=
        match llm_answer, re_ranked_list with
        | some a, top :: _ =>
          if !a.isEmpty && !containsSub citationTag a then
            some (a ++ citePre ++ displaySrc top.meta ++ citeMid ++
              idxStr top.meta ++ citeEnd)
          else some a
        | other, _ => other
      let answer2 :=
        match answer1 with
        | some a =>
          if a.isEmpty then assemble_extractive_answer re_ranked_list else a
        | none => assemble_extractive_answer re_ranked_list
      Except.ok { answer := answer2,
                  sources := _results_to_sources re_ranked_list,
                  refused := false }

theorem leadsWith_append_self : ∀ (pat ys : List Char), leadsWith pat (pat ++ ys) = true := by
  intro pat
  induction pat with
  | nil => intro ys; rfl
  | cons a as ih => intro ys; simp [leadsWith, ih]

theorem containsSub_of_leads {pat l : List Char} (h : leadsWith pat l = true) :
    containsSub pat l = true := by
  cases l with
  | nil => simpa [containsSub] using h
  | cons c t => simp [containsSub, h]

theorem containsSub_cons {pat : List Char} (c : Char) {t : List Char}
    (h : containsSub pat t = true) : containsSub pat (c :: t) = true := by
  simp [containsSub, h]

theorem containsSub_append_right (pat : List Char) :
    ∀ (xs : List Char) {ys : List Char}, containsSub pat ys = true →
      containsSub pat (xs ++ ys) = true := by
  intro xs
  induction xs with
  | nil => intro ys h; simpa using h
  | cons c cs ih =>
    intro ys h
    rw [List.cons_append]
    exact containsSub_cons c (ih h)

theorem containsSub_citePre (Z : List Char) :
    containsSub citationTag (citePre ++ Z) = true := by
  have h : citePre = ['\n', '\n'] ++ citationTag ++ [' '] := by decide
  rw [h]
  have h2 : (['\n', '\n'] ++ citationTag ++ [' ']) ++ Z =
      '\n' :: '\n' :: (citationTag ++ (' ' :: Z)) := by simp
  rw [h2]
  apply containsSub_cons
  apply containsSub_cons
  exact containsSub_of_leads (leadsWith_append_self citationTag _)

theorem assemble_extractive_contains :
    ∀ (results : List Res), results ≠ [] →
      containsSub citationTag (assemble_extractive_answer results) = true := by
  intro results hne
  cases results with
  | nil => exact absurd rfl hne
  | cons top rest =>
    simp only [assemble_extractive_answer]
    have hassoc : ∀ (x a b c d e : List Char),
        x ++ citePre ++ a ++ b ++ c ++ d ++ e =
        x ++ (citePre ++ (a ++ (b ++ (c ++ (d ++ e))))) := by
      intro x a b c d e
      simp [List.append_assoc]
    rw [hassoc]
    exact containsSub_append_right _ _ (containsSub_citePre _)

theorem assemble_extractive_ne_nil (results : List Res) :
    assemble_extractive_answer results ≠ [] := by
  cases results with
  | nil =>
    simp only [assemble_extractive_answer]
    decide
  | cons top rest =>
    simp only [assemble_extractive_answer]
    intro h
    simp only [List.append_eq_nil] at h
    have := h.2
    simp [extrNote] at this

theorem should_refuse_nil (re_ranked : Bool) (threshold : ℚ) :
    should_refuse [] re_ranked threshold = true := rfl

/-- C5: with re-ranked results whose top result carries a score,
rag.should_refuse returns true exactly when the top score is strictly
below the threshold. -/
theorem should_refuse_reranked_score :
    ∀ (top : Res) (rest : List Res) (threshold s : ℚ),
      top.score = some s →
      (should_refuse (top :: rest) true threshold = true ↔ s < threshold) := by
  intro top rest threshold s hs
  simp [should_refuse, hs]

def r5 : Res := ⟨none, ⟨none, none, none⟩, none, some (-1)⟩

/-- Witness for should_refuse_reranked_score at a top result scored -1
and threshold 0. -/
theorem should_refuse_reranked_score_witness :
    should_refuse [r5] true 0 = true ↔ (-1 : ℚ) < 0 :=
  should_refuse_reranked_score r5 [] 0 (-1) rfl

/-- C6: without re-ranking, or with a top result that carries no
score, rag.should_refuse falls back to the top result's raw distance:
refuse exactly when it exceeds the fixed cap 1.5, and never when the
distance is missing. -/
theorem should_refuse_distance_fallback :
    ∀ (top : Res) (rest : List Res) (threshold : ℚ) (rb : Bool),
      rb = false ∨ top.score = none →
      should_refuse (top :: rest) rb threshold =
        (match top.distance with
         | none => false
         | some d => decide (d > (1.5 : ℚ))) := by
  intro top rest threshold rb h
  rcases h with h | h
  · subst h
    simp [should_refuse]
  · cases rb with
    | false => simp [should_refuse]
    | true => simp [should_refuse, h]

def r6 : Res := ⟨none, ⟨none, none, none⟩, some 2, none⟩

/-- Witness for should_refuse_distance_fallback: an unscored top result
at distance 2 > 1.5 is refused even with re-ranking requested. -/
theorem should_refuse_distance_fallback_witness :
    should_refuse [r6] true 0 = true := by
  rw [should_refuse_distance_fallback r6 [] 0 true (Or.inr rfl)]
  have hd : r6.distance = some 2 := rfl
  rw [hd]
  show decide ((2 : ℚ) > (1.5 : ℚ)) = true
  simp only [decide_eq_true_eq]
  norm_num

/-- C1 (behaviour of the code): against a fresh or non-existent persist
directory the "documents" collection does not exist, so
client.get_collection raises; retrieve_top_k has no try/except and the
exception propagates out of retrieve_and_answer — the pipeline throws
instead of returning the empty result list and the canned refusal that
the specification requires. -/
theorem retrieve_and_answer_empty_store_throws :
    ∀ (query : List Char) (top_k : Nat) (re_rank : Bool)
      (rerankFn : List Res → List Res) (llm_answer : Option (List Char))
      (threshold : ℚ),
      retrieve_top_k emptyStore query top_k = Except.error collectionMissingMsg ∧
      retrieve_and_answer emptyStore query top_k re_rank rerankFn llm_answer
        threshold = Except.error collectionMissingMsg := by
  intro query top_k re_rank rerankFn llm_answer threshold
  exact ⟨rfl, rfl⟩

theorem cite_append_ne_nil (a s i : List Char) :
    a ++ citePre ++ s ++ citeMid ++ i ++ citeEnd ≠ [] := by
  intro h
  have hce : citeEnd ≠ [] := by decide
  rcases List.append_eq_nil.mp h with ⟨h1, h2⟩
  exact hce h2

/-- C3: every successful result of rag.retrieve_and_answer has an empty
sources list exactly when its refused flag is true, and a non-empty
answer string (the extractive fallback guarantees one even when the
generative model is unavailable). -/
theorem retrieve_and_answer_inv :
    ∀ (store : VectorStore) (query : List Char) (top_k : Nat) (re_rank : Bool)
      (rerankFn : List Res → List Res) (llm_answer : Option (List Char))
      (threshold : ℚ) (out : RAResult),
      retrieve_and_answer store query top_k re_rank rerankFn llm_answer threshold =
        Except.ok out →
      ((out.sources = []) ↔ (out.refused = true)) ∧ out.answer ≠ [] := by
  intro store query top_k re_rank rerankFn llm_answer threshold out hok
  unfold retrieve_and_answer at hok
  cases hr : retrieve_top_k store query top_k with
  | error e => rw [hr] at hok; simp at hok
  | ok results =>
    rw [hr] at hok
    dsimp only at hok
    by_cases hsr :
        should_refuse (if re_rank then rerankFn results else results) re_rank
          threshold = true
    · rw [if_pos hsr] at hok
      injection hok with hok
      subst hok
      refine ⟨by simp, ?_⟩
      show cannedRefusal ≠ []
      decide
    · rw [if_neg hsr] at hok
      injection hok with hok
      subst hok
      have hrrne : (if re_rank then rerankFn results else results) ≠ [] := by
        intro hnil
        apply hsr
        rw [hnil]
        rfl
      constructor
      · constructor
        · intro hsrc
          exfalso
          simp only [_results_to_sources, List.map_eq_nil_iff] at hsrc
          exact hrrne hsrc
        · intro href
          simp at href
      · show (match
            (match llm_answer, (if re_rank then rerankFn results else results) with
             | some a, top :: _ =>
               if !a.isEmpty && !containsSub citationTag a then
                 some (a ++ citePre ++ displaySrc top.meta ++ citeMid ++
                   idxStr top.meta ++ citeEnd)
               else some a
             | other, _ => other) with
           | some a =>
             if a.isEmpty then
               assemble_extractive_answer
                 (if re_rank then rerankFn results else results)
             else a
           | none =>
             assemble_extractive_answer
               (if re_rank then rerankFn results else results)) ≠ []
        cases hrr : (if re_rank then rerankFn results else results) with
        | nil => exact absurd hrr hrrne
        | cons top rest =>
          cases llm_answer with
          | none =>
            dsimp only
            rw [← hrr]
            exact assemble_extractive_ne_nil _
          | some a =>
            dsimp only
            by_cases hguard : (!a.isEmpty && !containsSub citationTag a) = true
            · rw [if_pos hguard]
              dsimp only
              rw [if_neg (by
                simp only [List.isEmpty_eq_true]
                exact cite_append_ne_nil a _ _)]
              exact cite_append_ne_nil a _ _
            · rw [if_neg hguard]
              dsimp only
              by_cases hae : a.isEmpty = true
              · rw [if_pos hae]
                rw [← hrr]
                exact assemble_extractive_ne_nil _
              · rw [if_neg hae]
                intro hnil
                apply hae
                rw [hnil]
                rfl

def witnessStore : VectorStore :=
  ⟨[(documentsName, ⟨fun _ _ => ⟨[], [], none⟩⟩)]⟩

/-- Witness for retrieve_and_answer_inv: querying a store whose
"documents" collection returns nothing refuses with empty sources and
the non-empty canned answer. -/
theorem retrieve_and_answer_inv_witness :
    (((⟨cannedRefusal, [], true⟩ : RAResult).sources = []) ↔
      ((⟨cannedRefusal, [], true⟩ : RAResult).refused = true)) ∧
    (⟨cannedRefusal, [], true⟩ : RAResult).answer ≠ [] :=
  retrieve_and_answer_inv witnessStore [] 5 true id none 0
    ⟨cannedRefusal, [], true⟩ rfl

/-- C7: every non-refused answer returned by rag.retrieve_and_answer
contains the citation marker "[source:": a generative answer lacking
one gets a citation synthesized from the top result's metadata
appended, and the extractive fallback always embeds one. -/
theorem retrieve_and_answer_citation :
    ∀ (store : VectorStore) (query : List Char) (top_k : Nat) (re_rank : Bool)
      (rerankFn : List Res → List Res) (llm_answer : Option (List Char))
      (threshold : ℚ) (out : RAResult),
      retrieve_and_answer store query top_k re_rank rerankFn llm_answer threshold =
        Except.ok out →
      out.refused = false →
      containsSub citationTag out.answer = true := by
  intro store query top_k re_rank rerankFn llm_answer threshold out hok href
  unfold retrieve_and_answer at hok
  cases hr : retrieve_top_k store query top_k with
  | error e => rw [hr] at hok; simp at hok
  | ok results =>
    rw [hr] at hok
    dsimp only at hok
    by_cases hsr :
        should_refuse (if re_rank then rerankFn results else results) re_rank
          threshold = true
    · rw [if_pos hsr] at hok
      injection hok with hok
      subst hok
      simp at href
    · rw [if_neg hsr] at hok
      injection hok with hok
      subst hok
      have hrrne : (if re_rank then rerankFn results else results) ≠ [] := by
        intro hnil
        apply hsr
        rw [hnil]
        rfl
      dsimp only
      cases hrr : (if re_rank then rerankFn results else results) with
      | nil => exact absurd hrr hrrne
      | cons top rest =>
        cases llm_answer with
        | none =>
          dsimp only
          rw [← hrr]
          exact assemble_extractive_contains _ hrrne
        | some a =>
          dsimp only
          by_cases hguard : (!a.isEmpty && !containsSub citationTag a) = true
          · rw [if_pos hguard]
            dsimp only
            rw [if_neg (by
              simp only [List.isEmpty_eq_true]
              exact cite_append_ne_nil a _ _)]
            have hassoc : a ++ citePre ++ displaySrc top.meta ++ citeMid ++
                idxStr top.meta ++ citeEnd =
                a ++ (citePre ++ (displaySrc top.meta ++ (citeMid ++
                  (idxStr top.meta ++ citeEnd)))) := by
              simp [List.append_assoc]
            rw [hassoc]
            exact containsSub_append_right _ _ (containsSub_citePre _)
          · rw [if_neg hguard]
            dsimp only
            by_cases hae : a.isEmpty = true
            · rw [if_pos hae]
              rw [← hrr]
              exact assemble_extractive_contains _ hrrne
            · rw [if_neg hae]
              simp only [Bool.and_eq_true, Bool.not_eq_true'] at hguard
              by_cases hct : containsSub citationTag a = true
              · exact hct
              · exfalso
                exact hguard ⟨by simpa using hae, by simpa using hct⟩

def docText : List Char := "policy text".toList

def helloTxt : List Char := "hello".toList

def witnessStore2 : VectorStore :=
  ⟨[(documentsName, ⟨fun _ _ => ⟨[docText], [⟨none, none, none⟩], none⟩⟩)]⟩

def c7answer : List Char :=
  helloTxt ++ citePre ++ unknownSrc ++ citeMid ++ naStr ++ citeEnd

def c7out : RAResult :=
  ⟨c7answer, [⟨unknownSrc, none, docText⟩], false⟩

/-- Witness for retrieve_and_answer_citation: one retrieved document,
no distance, no re-ranking and a generative answer "hello" without
citation — the pipeline appends [source: unknown, chunk: n/a] and the
returned answer contains the marker. -/
theorem retrieve_and_answer_citation_witness :
    containsSub citationTag c7answer = true :=
  retrieve_and_answer_citation witnessStore2 [] 5 false id (some helloTxt) 0 c7out
    rfl rfl

/-- Python Path(path).stem: the final path component without its last
suffix (a dot that is the first character of the name does not start a
suffix). -/
def pathStem (p : List Char) : List Char :=
  let nm := afterLastSlash p
  match nm with
  | [] => []
  | c0 :: rest =>
    if rest.contains '.' then
      c0 :: ((rest.reverse.dropWhile (fun c => c != '.')).tail).reverse
    else nm

def chunkIdMid : List Char := "__chunk_".toList

/-- The chunk id of ingest.main line 98:
f"{Path(path).stem}__chunk_{i}" — built from the filename stem only,
without any directory component. -/
def chunkId (path : List Char) (i : Nat) : List Char :=
  pathStem path ++ chunkIdMid ++ natToChars i

/-- One persisted index entry: the id, the document text and the
metadata {"source": str(path), "chunk_index": i, "filename":
Path(path).name} of ingest.main line 99. -/
structure IndexEntry where
  id : List Char
  document : List Char
  source : List Char
  chunk_index : Nat
  filename : List Char
deriving DecidableEq

def mkEntry (path : List Char) (i : Nat) (doc : List Char) : IndexEntry :=
  ⟨chunkId path i, doc, path, i, afterLastSlash path⟩

/-- The id/metadata/document triples ingest.main accumulates for one
file's chunk list (`for i, c in enumerate(chunks)`), starting at index
i0 (main starts at 0). -/
def entriesFor (path : List Char) : List (List Char) → Nat → List IndexEntry
  | [], _ => []
  | c :: cs, i0 => mkEntry path i0 c :: entriesFor path cs (i0 + 1)

/-- The single batch ingest.main builds across all files (in list_files
order) before its one collection.upsert call. -/
def ingestBatch (files : List (List Char × List (List Char))) : List IndexEntry :=
  (files.map (fun f => entriesFor f.1 f.2 0)).flatten

/-- Insert-or-overwrite of one entry by id against the existing store
contents: the effect of chromadb upsert for an id that is not
duplicated within the batch (spec glossary: "insert-or-overwrite by
identifier").  The store is a list keyed by id; overwriting is modelled
by removing the old entry for the id and adding the new one. -/
def upsertOne (store : List IndexEntry) (e : IndexEntry) : List IndexEntry :=
  store.filter (fun x => x.id != e.id) ++ [e]

/-- Does some id occur twice in the batch? -/
def hasDupIds : List IndexEntry → Bool
  | [] => false
  | e :: rest => rest.any (fun x => x.id == e.id) || hasDupIds rest

/-- The fixed part of chromadb's DuplicateIDError message. -/
def duplicateIdMsg : List Char := "Expected IDs to be unique".toList

/-- Modelled external collaborator (chromadb Collection.upsert): the
ids of one call are validated first (validate_ids), raising
DuplicateIDError when the same id occurs twice within that one call —
upsert only tolerates ids that already exist in the store from earlier
calls (the "avoids duplicate ID errors on re-ingest" of ingest.py's
comment).  Validation happens before any write, so an erroring call
changes nothing; with distinct in-batch ids each entry inserts or
overwrites by id. -/
def collection_upsert (store : List IndexEntry) (batch : List IndexEntry) :
    Except (List Char) (List IndexEntry) :=
  if hasDupIds batch then Except.error duplicateIdMsg
  else Except.ok (batch.foldl upsertOne store)

/-- Model of ingest.main's overall store effect: accumulate the one
batch across all files and issue the single collection.upsert
(ingest.py lines 102-105); main's blanket try/except catches any
exception and only prints it, so an erroring upsert leaves the store
unchanged. -/
def ingest_main_store (store : List IndexEntry)
    (files : List (List Char × List (List Char))) : List IndexEntry :=
  match collection_upsert store (ingestBatch files) with
  | Except.ok s => s
  | Except.error _ => store

/-- Lookup by id in the store. -/
def lookupId (store : List IndexEntry) (id0 : List Char) : Option IndexEntry :=
  store.find? (fun x => x.id == id0)

theorem find?_filter_superset {p q : IndexEntry → Bool}
    (himp : ∀ x, p x = true → q x = true) :
    ∀ (l : List IndexEntry), (l.filter q).find? p = l.find? p := by
  intro l
  induction l with
  | nil => rfl
  | cons a t ih =>
    rw [List.filter_cons]
    by_cases hq : q a = true
    · simp only [hq, if_true]
      rw [List.find?_cons, List.find?_cons]
      cases hp : p a <;> simp [ih]
    · have hp : p a = false := by
        cases hpa : p a with
        | false => rfl
        | true => exact absurd (himp a hpa) (by simpa using hq)
      simp only [hq, Bool.false_eq_true, if_false]
      rw [ih, List.find?_cons, hp]

theorem lookupId_upsertOne (store : List IndexEntry) (e : IndexEntry)
    (id0 : List Char) :
    lookupId (upsertOne store e) id0 =
      if e.id = id0 then some e else lookupId store id0 := by
  unfold upsertOne lookupId
  rw [List.find?_append]
  by_cases hid : e.id = id0
  · subst hid
    have h1 : (store.filter (fun x => x.id != e.id)).find?
        (fun x => x.id == e.id) = none := by
      rw [List.find?_eq_none]
      intro x hx
      have hxf := (List.mem_filter.mp hx).2
      simp only [bne_iff_ne, ne_eq] at hxf
      simp [hxf]
    rw [h1]
    simp [List.find?]
  · have h1 : (store.filter (fun x => x.id != e.id)).find?
        (fun x => x.id == id0) = store.find? (fun x => x.id == id0) := by
      apply find?_filter_superset
      intro x hpx
      have hxid : x.id = id0 := eq_of_beq hpx
      simp only [hxid, bne_iff_ne, ne_eq]
      intro hcon
      exact hid hcon.symm
    rw [h1]
    have he : (e.id == id0) = false := beq_false_of_ne hid
    cases hs : store.find? (fun x => x.id == id0) with
    | some y =>
      rw [if_neg hid]
      simp
    | none =>
      rw [if_neg hid]
      simp [List.find?, he]

theorem lookupId_upsert_batch :
    ∀ (batch store : List IndexEntry) (id0 : List Char),
      lookupId (batch.foldl upsertOne store) id0 =
        match batch.reverse.find? (fun x => x.id == id0) with
        | some e => some e
        | none => lookupId store id0 := by
  intro batch
  induction batch with
  | nil => intro store id0; rfl
  | cons e rest ih =>
    intro store id0
    rw [List.foldl_cons, ih (upsertOne store e) id0]
    rw [List.reverse_cons, List.find?_append]
    cases hs : rest.reverse.find? (fun x => x.id == id0) with
    | some y => simp
    | none =>
      simp only [Option.none_or]
      rw [lookupId_upsertOne]
      rw [List.find?_cons]
      by_cases hid : e.id = id0
      · have : (e.id == id0) = true := beq_iff_eq.mpr hid
        simp [this, hid]
      · have : (e.id == id0) = false := beq_false_of_ne hid
        simp [this, hid]

theorem chunkId_inj_index (p : List Char) {i j : Nat}
    (h : chunkId p i = chunkId p j) : i = j := by
  unfold chunkId at h
  rw [List.append_assoc, List.append_assoc] at h
  have h2 := List.append_cancel_left h
  have h3 := List.append_cancel_left h2
  exact natToChars_inj i j h3


theorem find?_entriesFor_rev (p : List Char) :
    ∀ (chs : List (List Char)) (i0 i : Nat),
      (entriesFor p chs i0).reverse.find? (fun x => x.id == chunkId p i) =
        if i0 ≤ i then (chs[i - i0]?).map (fun c => mkEntry p i c)
        else none := by
  intro chs
  induction chs with
  | nil =>
    intro i0 i
    simp only [entriesFor, List.reverse_nil, List.find?_nil, List.getElem?_nil,
      Option.map_none']
    cases hif : decide (i0 ≤ i) <;> simp
  | cons c cs ih =>
    intro i0 i
    simp only [entriesFor, List.reverse_cons, List.find?_append]
    rw [ih (i0 + 1) i]
    by_cases hle : i0 + 1 ≤ i
    · rw [if_pos hle]
      cases hg : cs[i - (i0 + 1)]? with
      | some c2 =>
        simp only [hg, Option.map_some', Option.or_some]
        rw [if_pos (by omega : i0 ≤ i)]
        have hidx : i - i0 = (i - (i0 + 1)) + 1 := by omega
        rw [hidx, List.getElem?_cons_succ, hg, Option.map_some']
      | none =>
        simp only [hg, Option.map_none', Option.none_or]
        have hne : (chunkId p i0 == chunkId p i) = false := by
          apply beq_false_of_ne
          intro hcon
          have := chunkId_inj_index p hcon
          omega
        simp only [List.find?, mkEntry, hne, List.find?_nil]
        rw [if_pos (by omega : i0 ≤ i)]
        have hidx : i - i0 = (i - (i0 + 1)) + 1 := by omega
        rw [hidx, List.getElem?_cons_succ, hg, Option.map_none']
    · rw [if_neg hle]
      simp only [Option.none_or]
      by_cases heq : i0 = i
      · subst heq
        have hyes : (chunkId p i0 == chunkId p i0) = true := by simp
        simp only [List.find?, mkEntry, hyes]
        rw [if_pos (le_refl i0)]
        have hidx : i0 - i0 = 0 := by omega
        rw [hidx, List.getElem?_cons_zero, Option.map_some']
      · have hne : (chunkId p i0 == chunkId p i) = false := by
          apply beq_false_of_ne
          intro hcon
          exact heq (chunkId_inj_index p hcon)
        simp only [List.find?, mkEntry, hne, List.find?_nil]
        rw [if_neg (by omega : ¬ i0 ≤ i)]

/-- Every chunk of a file appears in its accumulated entry list, at
its enumeration index. -/
theorem mem_entriesFor (p : List Char) :
    ∀ (chs : List (List Char)) (i0 j : Nat) (c : List Char),
      chs[j]? = some c → mkEntry p (i0 + j) c ∈ entriesFor p chs i0 := by
  intro chs
  induction chs with
  | nil => intro i0 j c h; simp at h
  | cons x xs ih =>
    intro i0 j c h
    cases j with
    | zero =>
      rw [List.getElem?_cons_zero] at h
      injection h with h
      subst h
      simp only [Nat.add_zero, entriesFor]
      exact List.mem_cons_self _ _
    | succ j2 =>
      rw [List.getElem?_cons_succ] at h
      have hmem := ih (i0 + 1) j2 c h
      have harith : i0 + (j2 + 1) = (i0 + 1) + j2 := by omega
      rw [harith]
      exact List.mem_cons_of_mem _ hmem

/-- A shared id across the two halves of a batch makes the batch carry
duplicate ids. -/
theorem hasDupIds_append_of_cross :
    ∀ (l1 l2 : List IndexEntry) (e f : IndexEntry),
      e ∈ l1 → f ∈ l2 → e.id = f.id → hasDupIds (l1 ++ l2) = true := by
  intro l1
  induction l1 with
  | nil => intro l2 e f he _ _; simp at he
  | cons a t ih =>
    intro l2 e f he hf heq
    rw [List.cons_append]
    simp only [hasDupIds, Bool.or_eq_true]
    rcases List.mem_cons.mp he with he | he
    · left
      rw [List.any_eq_true]
      refine ⟨f, List.mem_append_right t hf, ?_⟩
      subst he
      exact beq_iff_eq.mpr heq.symm
    · right
      exact ih l2 e f he hf heq

/-- C10 (amended): ingest.main builds chunk ids from the filename stem
only, so two distinct ingested files with equal stems (e.g. the same
file name in different subdirectories of data_dir, both yielded by the
recursive walk of utils.list_files) assign identical ids to chunks at
equal indices.  Main accumulates both files into one batch and issues a
single collection.upsert, whose id validation rejects in-batch
duplicates: the call raises DuplicateIDError, main catches and logs it,
and the store is left unchanged — nothing is persisted, and in
particular the later file does not overwrite the earlier file's
chunks. -/
theorem chunk_id_stem_collision_duplicate_error :
    ∀ (p1 p2 : List Char) (chs1 chs2 : List (List Char)) (i : Nat)
      (c1 c2 : List Char) (store : List IndexEntry),
      pathStem p1 = pathStem p2 →
      chs1[i]? = some c1 →
      chs2[i]? = some c2 →
      (chunkId p1 i = chunkId p2 i) ∧
      collection_upsert store (ingestBatch [(p1, chs1), (p2, chs2)]) =
        Except.error duplicateIdMsg ∧
      ingest_main_store store [(p1, chs1), (p2, chs2)] = store := by
  intro p1 p2 chs1 chs2 i c1 c2 store hstem hget1 hget2
  have hid : chunkId p1 i = chunkId p2 i := by
    unfold chunkId
    rw [hstem]
  have hm1 : mkEntry p1 i c1 ∈ entriesFor p1 chs1 0 := by
    have := mem_entriesFor p1 chs1 0 i c1 hget1
    rwa [Nat.zero_add] at this
  have hm2 : mkEntry p2 i c2 ∈ entriesFor p2 chs2 0 := by
    have := mem_entriesFor p2 chs2 0 i c2 hget2
    rwa [Nat.zero_add] at this
  have hbatch : ingestBatch [(p1, chs1), (p2, chs2)] =
      entriesFor p1 chs1 0 ++ entriesFor p2 chs2 0 := by
    unfold ingestBatch
    simp
  have hdup : hasDupIds (ingestBatch [(p1, chs1), (p2, chs2)]) = true := by
    rw [hbatch]
    exact hasDupIds_append_of_cross _ _ (mkEntry p1 i c1) (mkEntry p2 i c2)
      hm1 hm2 hid
  have herr : collection_upsert store (ingestBatch [(p1, chs1), (p2, chs2)]) =
      Except.error duplicateIdMsg := by
    unfold collection_upsert
    rw [if_pos hdup]
  refine ⟨hid, herr, ?_⟩
  unfold ingest_main_store
  rw [herr]

def p1sample : List Char := "data/a/policy.md".toList

def p2sample : List Char := "data/b/policy.md".toList

def xDoc : List Char := "x".toList

def yDoc : List Char := "y".toList

/-- Witness for chunk_id_stem_collision_duplicate_error: files
data/a/policy.md and data/b/policy.md share the stem "policy", the
batched upsert of the two files raises the duplicate-id error, and the
(empty) store is unchanged. -/
theorem chunk_id_stem_collision_duplicate_error_witness :
    (chunkId p1sample 0 = chunkId p2sample 0) ∧
    collection_upsert [] (ingestBatch [(p1sample, [xDoc]), (p2sample, [yDoc])]) =
      Except.error duplicateIdMsg ∧
    ingest_main_store [] [(p1sample, [xDoc]), (p2sample, [yDoc])] = [] :=
  chunk_id_stem_collision_duplicate_error p1sample p2sample [xDoc] [yDoc] 0
    xDoc yDoc [] (by decide) (by decide) (by decide)

/-- Counterexample to the original overwrite reading of C10: ingesting
data/a/policy.md then data/b/policy.md (equal stems) into an empty
store does NOT leave data/b's chunk stored under the shared id
policy__chunk_0 — the single batched upsert fails id validation, main
swallows the error, and the store stays empty. -/
theorem chunk_id_overwrite_counterexample :
    ¬ (lookupId (ingest_main_store [] [(p1sample, [xDoc]), (p2sample, [yDoc])])
        (chunkId p1sample 0) = some (mkEntry p2sample 0 yDoc)) := by
  decide
